import Mathlib

/-!
Verification of `key-value-file-system` (`src/src/index.ts`).

The TypeScript class `KeyValueFileSystem` is shallowly embedded here.
JavaScript strings are modelled as `List Char`; the external key-value
store collaborator (`KeyValueStore`, lines 1-11 of the source) is
modelled as an association list of key/value pairs together with the
semantics of its seven operations as described in §6 of the design
document.  Every public operation of the facade returns, in addition to
its result, the list of store operations it issued, so that "performs
zero store operations" claims can be stated about the trace.

Value (de)serialisation (`JSON.stringify` / `JSON.parse`, assumed
lossless by the spec's codec contract) is abstracted into a pair of
functions `enc : V → Str` and `dec : Str → V`.
-/

namespace KVFS

/-- JavaScript strings are modelled as lists of characters. -/
abbrev Str := List Char

/-- The external store's state: an association list of key/value pairs
(first entry with a given key wins on reads; writes replace in place). -/
abbrev Store := List (Str × Str)

/-- Errors thrown by the facade.  `validation` is the
`Error("spec or path must not be empty")` thrown by `validatePath`
(source lines 110-114). -/
inductive KVError where
  | validation
deriving DecidableEq, Repr

/-- One call issued to the `KeyValueStore` collaborator (source lines 1-11). -/
inductive StoreOp where
  | getAllKeys
  | getItem (key : Str)
  | setItem (key value : Str)
  | removeItem (key : Str)
  | multiGet (keys : List Str)
  | multiSet (kvs : List (Str × Str))
  | multiRemove (keys : List Str)
deriving DecidableEq, Repr

/-! Store collaborator semantics (§6 of the spec). -/

/-- Semantics of `getItem`: point read; first entry with the key, `none` when absent. -/
def getVal (k : Str) : Store → Option Str
  | [] => none
  | (k', v) :: rest => if k' = k then some v else getVal k rest

/-- Semantics of `setItem`: upsert; replaces the first entry with the key in place,
appends when the key is absent. -/
def setVal (k v : Str) : Store → Store
  | [] => [(k, v)]
  | (k', v') :: rest => if k' = k then (k, v) :: rest else (k', v') :: setVal k v rest

/-- Semantics of `removeItem`: point delete; deleting an absent key is not an error. -/
def removeVal (k : Str) (st : Store) : Store :=
  st.filter fun e => decide (e.1 ≠ k)

/-- Semantics of `getAllKeys`: every key currently held by the store. -/
def storeKeys (st : Store) : List Str :=
  st.map fun e => e.1

/-- Semantics of `multiGet`: batched read, order corresponds to input order. -/
def multiGetStore (ks : List Str) (st : Store) : List (Str × Option Str) :=
  ks.map fun k => (k, getVal k st)

/-- Semantics of `multiSet`: batched write. -/
def multiSetStore (kvs : List (Str × Str)) (st : Store) : Store :=
  kvs.foldl (fun s kv => setVal kv.1 kv.2 s) st

/-- Semantics of `multiRemove`: batched delete. -/
def multiRemoveStore (ks : List Str) (st : Store) : Store :=
  st.filter fun e => !decide (e.1 ∈ ks)

/-! Pattern compiler (`regexFromSpec`, source lines 116-154).

The compiler scans the spec, producing the list of literal segments and
whether the raw last character of the spec is `*`, and assembles the
JavaScript regular expression

  `^` ++ prefix ++ (segments, regexp-escaped, joined by `".*"`)
      ++ (if the spec's last character is `*` then ".*" else "") ++ `$`.

The instance's prefix is interpolated into the pattern verbatim and
unescaped, so the compiled matcher's behaviour depends on how the
prefix reads as regular-expression source.  The pattern string is
therefore built here exactly as on lines 147-153 (`regexSource`) and
then interpreted by a parser and backtracking engine (`parseItems`,
`matchItems`) for the fragment of JavaScript regular expressions such
patterns occupy: a leading `^` anchor, a trailing `$` anchor, and a
sequence of atoms — a plain literal character, an identity escape
(backslash before a non-alphanumeric character, denoting that character
literally), or `.` (any character except the four line terminators) —
each optionally followed by `*`.  Everything a segment contributes lies
in this fragment, because `seg.replace(/[.*+\-?^${}()|[\]\\]/g, "\\$&")`
(line 148) escapes every significant character; so do the `".*"` joins
and any prefix made of ordinary characters, as well as prefixes
containing `.` or a backslash.  A prefix can in principle also inject
grouping, classes, alternation, other quantifiers, or alphanumeric
escape classes; those constructs are outside the fragment and the
parser rejects such patterns (the modelled matcher then accepts
nothing).  No theorem below concerns such a prefix: general statements
about the matcher are made for prefixes that contain no character of
the escaped set (`regexLiteral`), where the fragment is exact, and the
concrete counterexamples use the prefixes `"/kvfs"` and `"."`, both
inside the fragment. -/

/-- Characters matched by `.` in a JavaScript regular expression:
everything except the four line terminators. -/
def dotOk (c : Char) : Bool :=
  !decide (c = '\n' ∨ c = '\r' ∨ c = '\u2028' ∨ c = '\u2029')

/-- The scanning loop of `regexFromSpec` (source lines 121-143).
`cur` is `curSegment`, `segs` the `segments` accumulator.  A backslash
consumes the following character literally; a backslash that is the last
character of the spec makes JavaScript evaluate
`curSegment += spec[i]` with `spec[i] === undefined`, which appends the
text `"undefined"` to the current segment. -/
def scanSpec : Str → Str → List Str → List Str
  | [], cur, segs => if cur.isEmpty then segs else segs ++ [cur]
  | ['\\'], cur, segs =>
      let cur2 := cur ++ "undefined".data
      if cur2.isEmpty then segs else segs ++ [cur2]
  | '\\' :: c :: rest, cur, segs => scanSpec rest (cur ++ [c]) segs
  | '*' :: rest, cur, segs =>
      if cur.isEmpty then scanSpec rest [] segs
      else scanSpec rest [] (segs ++ [cur])
  | c :: rest, cur, segs => scanSpec rest (cur ++ [c]) segs

/-- The literal segments of a spec (source lines 117-143). -/
def segments (spec : Str) : List Str :=
  scanSpec spec [] []

/-- The test `spec[spec.length - 1] === "*"` (source line 152): the raw last
character of the spec, escaped or not; `false` for the empty spec
(indexing out of range yields `undefined`). -/
def lastIsStar (spec : Str) : Bool :=
  decide (spec.getLast? = some '*')

/-- The segment/open-end pair the compiled regular expression is built
from (source lines 116-154). -/
def regexFromSpec (spec : Str) : List Str × Bool :=
  (segments spec, lastIsStar spec)

/-- The characters escaped during segment escaping (source line 148's
character class `[.*+\-?^${}()|[\]\\]`). -/
def isRegexSpecial (c : Char) : Bool :=
  decide (c = '.' ∨ c = '*' ∨ c = '+' ∨ c = '-' ∨ c = '?' ∨ c = '^' ∨ c = '$' ∨
    c = '\x7b' ∨ c = '\x7d' ∨ c = '(' ∨ c = ')' ∨ c = '|' ∨ c = '[' ∨ c = ']' ∨
    c = '\\')

/-- Regexp-escaping of one segment (source line 148):
`seg.replace(/[.*+\-?^${}()|[\]\\]/g, "\\$&")`. -/
def escapeRegex (seg : Str) : Str :=
  seg.flatMap fun c => if isRegexSpecial c then ['\\', c] else [c]

/-- The optional end-open tail of the pattern (source line 152):
`".*"` exactly when the spec's raw last character is `*`. -/
def tailStr (openEnd : Bool) : Str :=
  if openEnd then ".*".data else []

/-- The part of the pattern after the interpolated prefix (source lines
147-152): the escaped segments joined by `".*"`, followed by the
optional tail. -/
def bodyStr : List Str → Bool → Str
  | [], openEnd => tailStr openEnd
  | [s], openEnd => escapeRegex s ++ tailStr openEnd
  | s :: s2 :: ss, openEnd => escapeRegex s ++ ".*".data ++ bodyStr (s2 :: ss) openEnd

/-- The exact text of the regular expression built on lines 147-153. -/
def regexSource (pfx spec : Str) : Str :=
  '^' :: pfx ++ bodyStr (segments spec) (lastIsStar spec) ++ ['$']

/-- One atom of the regular-expression fragment these patterns occupy:
`.` or a literal character (written plainly or as an identity escape). -/
inductive RAtom where
  | dot
  | lit (c : Char)
deriving DecidableEq, Repr

/-- One parsed pattern element: an atom together with whether a `*`
quantifier follows it. -/
abbrev RItem := RAtom × Bool

/-- Whether one character is accepted by an atom. -/
def atomOk : RAtom → Char → Bool
  | RAtom.dot, c => dotOk c
  | RAtom.lit a, c => decide (c = a)

/-- The characters that are regexp-significant when standing alone
(unescaped, outside a class) and are not handled as `.`, `\` or a plain
literal by the parser below: a pattern containing one of these outside
an escape lies outside the modelled fragment. -/
def standaloneSpecial (c : Char) : Bool :=
  decide (c = '*' ∨ c = '+' ∨ c = '?' ∨ c = '^' ∨ c = '$' ∨ c = '\x7b' ∨
    c = '\x7d' ∨ c = '(' ∨ c = ')' ∨ c = '|' ∨ c = '[' ∨ c = ']')

/-- Flushing the pending atom of the parsing loop: the most recently
read atom is emitted once the next construct shows no `*` follows it. -/
def flushP : Option RItem → List RItem
  | none => []
  | some it => [it]

/-- The parsing loop for the anchor-free part of the pattern.  `p` is
the most recently read atom, kept pending so that a following `*` can
quantify it.  A plain character, an identity escape `\c` (`c` not
alphanumeric, denoting `c` literally), or `.` each start a new atom,
flushing the pending one; `*` upgrades the pending atom to a starred
item (no pending atom, or one already starred, means the quantifier has
nothing to repeat — a syntax error).  `none` whenever the pattern text
leaves the fragment (standalone `+`/`?`/brace/group/class/alternation
characters, alphanumeric escapes, a dangling escape, a misplaced `*`). -/
def parseLoop : Option RItem → Str → Option (List RItem)
  | p, [] => some (flushP p)
  | p, c :: rest =>
      if c = '\\' then
        match rest with
        | [] => none
        | c2 :: rest2 =>
            if c2.isAlphanum then none
            else
              (parseLoop (some (RAtom.lit c2, false)) rest2).map fun its =>
                flushP p ++ its
      else if c = '.' then
        (parseLoop (some (RAtom.dot, false)) rest).map fun its => flushP p ++ its
      else if c = '*' then
        match p with
        | some (a, false) => parseLoop (some (a, true)) rest
        | _ => none
      else if standaloneSpecial c then none
      else
        (parseLoop (some (RAtom.lit c, false)) rest).map fun its => flushP p ++ its

/-- Parser for the anchor-free part of the pattern: a sequence of atoms
(plain character, identity escape, or `.`), each optionally followed by
`*`. -/
def parseItems (s : Str) : Option (List RItem) :=
  parseLoop none s

/-- Parser for the whole pattern: a leading `^` anchor, the atom
sequence, a trailing `$` anchor (the shape every pattern built by
`regexSource` has). -/
def parsePattern (s : Str) : Option (List RItem) :=
  match s with
  | [] => none
  | c :: rest =>
      if c = '^' then
        match rest.getLast? with
        | some d => if d = '$' then parseItems rest.dropLast else none
        | none => none
      else none

/-- The items a string contributes when every one of its characters is
read as a plain literal atom. -/
def litItems (s : Str) : List RItem :=
  s.map fun c => (RAtom.lit c, false)

/-- Whether a string contains no regexp-significant character at all, so
that interpolating it into a pattern reads it as an exact string
literal.  This holds of the default prefix `"/kvfs"`. -/
def regexLiteral (s : Str) : Bool :=
  s.all fun c => !isRegexSpecial c

/-- Acceptance of a whole string by a parsed pattern (the pattern is
anchored at both ends): an unstarred atom consumes exactly one
character; a starred atom consumes any number of characters it accepts
(realised as a search over every split point, which is what a
backtracking engine explores). -/
def matchItems : List RItem → Str → Bool
  | [], s => s.isEmpty
  | (a, false) :: items, s =>
      match s with
      | [] => false
      | c :: cs => atomOk a c && matchItems items cs
  | (a, true) :: items, s =>
      (List.range (s.length + 1)).any fun i =>
        (s.take i).all (atomOk a) && matchItems items (s.drop i)

/-- Denotation of the part of the pattern after a string-literal prefix:
the literal segments in order, joined by `.*`, with the end anchored by
`$` unless `openEnd`, in which case a final `.*` precedes the `$`.
Below (`matchItems_segsItems`, `regexTest_literal`) this denotation is
proved to agree with the parsed pattern's engine semantics. -/
def matchSegs : List Str → Bool → Str → Bool
  | [], openEnd, rest => if openEnd then rest.all dotOk else rest.isEmpty
  | [s], openEnd, rest =>
      if openEnd then s.isPrefixOf rest && (rest.drop s.length).all dotOk
      else rest == s
  | s :: s2 :: ss, openEnd, rest =>
      s.isPrefixOf rest &&
        (let r := rest.drop s.length
         (List.range (r.length + 1)).any fun i =>
           (r.take i).all dotOk && matchSegs (s2 :: ss) openEnd (r.drop i))

/-- The items the pattern body after the prefix parses to: each segment
as literal atoms, `(dot, starred)` for the joins and the optional tail. -/
def segsItems : List Str → Bool → List RItem
  | [], true => [(RAtom.dot, true)]
  | [], false => []
  | [s], openEnd => litItems s ++ segsItems [] openEnd
  | s :: s2 :: ss, openEnd => litItems s ++ (RAtom.dot, true) :: segsItems (s2 :: ss) openEnd

/-- The result of `regex.test(key)` for the regular expression compiled
from `spec` by an instance with namespace prefix `pfx` (source lines 36,
39, 151-153): the pattern text is parsed and run against the key. -/
def regexTest (pfx spec key : Str) : Bool :=
  match parsePattern (regexSource pfx spec) with
  | none => false
  | some items => matchItems items key

/-! Filesystem facade (the public operations of `KeyValueFileSystem`).
Each operation takes the instance's namespace prefix `pfx`
(`this.prefix`, set by the constructor, source lines 22-31) and the
current store state, and returns its result together with the list of
store calls it issued.  Mutating operations additionally return the new
store state. -/

section Facade

variable {V : Type} (enc : V → Str) (dec : Str → V)

/-- The operation `ls` (source lines 33-41): normalise the spec
(`spec || "*"`; both `undefined` and the empty string are falsy), fetch
all keys, filter by the compiled matcher, strip the prefix. -/
def ls (pfx : Str) (spec : Option Str) (st : Store) : List Str × List StoreOp :=
  let normalizedSpec := match spec with
    | none => ['*']
    | some s => if s.isEmpty then ['*'] else s
  let keys := storeKeys st
  ((keys.filter fun key => regexTest pfx normalizedSpec key).map
      fun key => key.drop pfx.length,
    [StoreOp.getAllKeys])

/-- The operation `read` (source lines 43-51): validate the path, fetch
`prefix + path`, decode unless absent (`JSON.parse(item)` when
`item !== null`, else `null`). -/
def read (pfx path : Str) (st : Store) : Except KVError (Option V) × List StoreOp :=
  if path.isEmpty then (Except.error KVError.validation, [])
  else
    let item := getVal (pfx ++ path) st
    (Except.ok (item.map dec), [StoreOp.getItem (pfx ++ path)])

/-- Decoding of one `multiGet` result in `readMulti` (source line 60):
`str ? (JSON.parse(str) as T) : null` — both `null` and the empty
string are falsy, so both yield `null`. -/
def decodeTruthy (os : Option Str) : Option V :=
  match os with
  | none => none
  | some s => if s.isEmpty then none else some (dec s)

/-- The operation `readMulti` (source lines 53-66): list the matching
paths, batch-fetch `prefix + path` for each, pair each de-prefixed key
with its decoded value. -/
def readMulti (pfx spec : Str) (st : Store) :
    List (Str × Option V) × List StoreOp :=
  let keys := (ls pfx (some spec) st).1
  let fullKeys := keys.map fun key => pfx ++ key
  let values := multiGetStore fullKeys st
  (values.map fun pv => (pv.1.drop pfx.length, decodeTruthy dec pv.2),
    (ls pfx (some spec) st).2 ++ [StoreOp.multiGet fullKeys])

/-- The operation `write` (source lines 68-71): validate the path, then
set `prefix + path` to the encoded value. -/
def write (pfx path : Str) (v : V) (st : Store) :
    Except KVError Unit × Store × List StoreOp :=
  if path.isEmpty then (Except.error KVError.validation, st, [])
  else
    (Except.ok (), setVal (pfx ++ path) (enc v) st,
      [StoreOp.setItem (pfx ++ path) (enc v)])

/-- The combined path of one `writeMulti` entry (source line 89):
`basePath ? basePath + subPath : subPath` — both `undefined` and the
empty string are falsy. -/
def fullPathOf (basePath : Option Str) (subPath : Str) : Str :=
  match basePath with
  | none => subPath
  | some b => if b.isEmpty then subPath else b ++ subPath

/-- The mapping loop of `writeMulti` (source lines 85-93): build the
key/value pairs for `multiSet`, validating each combined path;
`none` when some combined path is empty (the JavaScript callback throws
at the first empty combined path, before any store call is made). -/
def buildKVs (pfx : Str) (basePath : Option Str) :
    List (Str × V) → Option (List (Str × Str))
  | [] => some []
  | (subPath, v) :: rest =>
      let fullPath := fullPathOf basePath subPath
      if fullPath.isEmpty then none
      else
        match buildKVs pfx basePath rest with
        | none => none
        | some kvs => some ((pfx ++ fullPath, enc v) :: kvs)

/-- The operation `writeMulti` (source lines 77-96): short-circuit on an
empty entry list, otherwise build and validate all key/value pairs, then
issue a single `multiSet`. -/
def writeMulti (pfx : Str) (basePath : Option Str) (values : List (Str × V))
    (st : Store) : Except KVError Unit × Store × List StoreOp :=
  if values.isEmpty then (Except.ok (), st, [])
  else
    match buildKVs enc pfx basePath values with
    | none => (Except.error KVError.validation, st, [])
    | some kvs =>
        (Except.ok (), multiSetStore kvs st, [StoreOp.multiSet kvs])

/-- The operation `rm` (source lines 98-101): validate the path, then
remove the single key `prefix + path`. -/
def rm (pfx path : Str) (st : Store) :
    Except KVError Unit × Store × List StoreOp :=
  if path.isEmpty then (Except.error KVError.validation, st, [])
  else
    (Except.ok (), removeVal (pfx ++ path) st,
      [StoreOp.removeItem (pfx ++ path)])

/-- The operation `rmAllForce` (source lines 103-108): fetch all keys,
keep those that start with the instance's prefix, batch-remove exactly
those. -/
def rmAllForce (pfx : Str) (st : Store) : Store × List StoreOp :=
  let keys := storeKeys st
  let ourKeys := keys.filter fun key => decide (pfx <+: key)
  (multiRemoveStore ourKeys st, [StoreOp.getAllKeys, StoreOp.multiRemove ourKeys])

/-- Modelled from the spec: the `removeMulti` operation (called `rmMulti`
by the test suite) is absent from `src/src/index.ts`; only its tests
exist.  Per §4.3 of the spec: "removeMulti(paths): list of literal
paths; empty list is a no-op; batch-removes the given exact paths;
empty input performs zero store operations."  Each literal path is
turned into the store key `prefix + path` (§3: a store key "always
equals prefix + path"). -/
def rmMulti (pfx : Str) (paths : List Str) (st : Store) : Store × List StoreOp :=
  if paths.isEmpty then (st, [])
  else
    let ks := paths.map fun path => pfx ++ path
    (multiRemoveStore ks st, [StoreOp.multiRemove ks])

/-- The store keys written by one store call: used to state that every
key the system creates carries the namespace prefix. -/
def opWriteKeys : StoreOp → List Str
  | StoreOp.setItem key _ => [key]
  | StoreOp.multiSet kvs => kvs.map fun kv => kv.1
  | _ => []

/-- All store keys written during a trace. -/
def writtenKeys (trace : List StoreOp) : List Str :=
  (trace.map opWriteKeys).flatten

end Facade

/-! Helper lemmas about the store semantics. -/

theorem getVal_setVal_self (k v : Str) (st : Store) :
    getVal k (setVal k v st) = some v := by
  induction st with
  | nil => simp [setVal, getVal]
  | cons e rest ih =>
    by_cases h : e.1 = k
    · simp [setVal, getVal, h]
    · simp [setVal, getVal, h, ih]

theorem getVal_filter_of_all (p : Str × Str → Bool) (k : Str) (st : Store)
    (h : ∀ v, p (k, v) = true) :
    getVal k (st.filter p) = getVal k st := by
  induction st with
  | nil => simp [getVal]
  | cons e rest ih =>
    by_cases hk : e.1 = k
    · have : p e = true := by
        have := h e.2
        rwa [show (k, e.2) = e by rw [← hk]] at this
      simp [List.filter_cons, this, getVal, hk]
    · by_cases hp : p e = true
      · simp [List.filter_cons, hp, getVal, hk, ih]
      · simp only [Bool.not_eq_true] at hp
        simp [List.filter_cons, hp, getVal, hk, ih]

theorem getVal_filter_of_none (p : Str × Str → Bool) (k : Str) (st : Store)
    (h : ∀ v, p (k, v) = false) :
    getVal k (st.filter p) = none := by
  induction st with
  | nil => simp [getVal]
  | cons e rest ih =>
    by_cases hk : e.1 = k
    · have : p e = false := by
        have := h e.2
        rwa [show (k, e.2) = e by rw [← hk]] at this
      simp [List.filter_cons, this, ih]
    · by_cases hp : p e = true
      · simp [List.filter_cons, hp, getVal, hk, ih]
      · simp only [Bool.not_eq_true] at hp
        simp [List.filter_cons, hp, getVal, hk, ih]

theorem getVal_multiRemove (ks : List Str) (k : Str) (st : Store) :
    getVal k (multiRemoveStore ks st) =
      if k ∈ ks then none else getVal k st := by
  by_cases hmem : k ∈ ks
  · rw [if_pos hmem]
    exact getVal_filter_of_none _ k st fun v => by simp [hmem]
  · rw [if_neg hmem]
    exact getVal_filter_of_all _ k st fun v => by simp [hmem]

theorem filter_eq_nil_of_not_mem {α : Type} (l : List α) (a : α)
    (p : α → Bool) (hp : ∀ x, p x = true ↔ x = a) (hmem : a ∉ l) :
    l.filter p = [] := by
  rw [List.filter_eq_nil_iff]
  intro y hy hpy
  exact hmem (((hp y).mp hpy) ▸ hy)

theorem filter_eq_singleton_of_mem {α : Type} (l : List α) (a : α)
    (p : α → Bool) (hnd : l.Nodup) (hp : ∀ x, p x = true ↔ x = a)
    (hmem : a ∈ l) :
    l.filter p = [a] := by
  induction l with
  | nil => cases hmem
  | cons x xs ih =>
    rw [List.nodup_cons] at hnd
    by_cases hx : p x = true
    · have hxa : x = a := (hp x).mp hx
      subst hxa
      have : xs.filter p = [] := filter_eq_nil_of_not_mem xs x p hp hnd.1
      simp [List.filter_cons, hx, this]
    · have hxa : x ≠ a := fun hh => hx ((hp x).mpr hh)
      have hmem' : a ∈ xs := by
        rcases List.mem_cons.mp hmem with h | h
        · exact absurd h.symm hxa
        · exact h
      simp only [Bool.not_eq_true] at hx
      simp [List.filter_cons, hx, ih hnd.2 hmem']

/-! Helper lemmas about `writeMulti`'s key/value construction. -/

theorem buildKVs_none_of_mem {V : Type} (enc : V → Str) (pfx : Str)
    (base : Option Str) (values : List (Str × V)) (sub : Str) (w : V)
    (hmem : (sub, w) ∈ values) (hsub : fullPathOf base sub = []) :
    buildKVs enc pfx base values = none := by
  induction values with
  | nil => cases hmem
  | cons e rest ih =>
    rcases List.mem_cons.mp hmem with he | he
    · have : fullPathOf base e.1 = [] := by rw [show e.1 = sub by rw [← he]]; exact hsub
      simp [buildKVs, this]
    · by_cases hh : (fullPathOf base e.1).isEmpty = true
      · simp [buildKVs, hh]
      · simp only [Bool.not_eq_true] at hh
        simp [buildKVs, hh, ih he]

theorem buildKVs_keys {V : Type} (enc : V → Str) (pfx : Str)
    (base : Option Str) (values : List (Str × V)) (kvs : List (Str × Str))
    (hb : buildKVs enc pfx base values = some kvs) (kv : Str × Str)
    (hkv : kv ∈ kvs) :
    ∃ sub w, (sub, w) ∈ values ∧ kv.1 = pfx ++ fullPathOf base sub := by
  induction values generalizing kvs with
  | nil =>
    simp [buildKVs] at hb
    subst hb
    cases hkv
  | cons e rest ih =>
    by_cases hh : (fullPathOf base e.1).isEmpty = true
    · simp [buildKVs, hh] at hb
    · simp only [Bool.not_eq_true] at hh
      simp only [buildKVs, hh, Bool.false_eq_true, if_false] at hb
      cases hrest : buildKVs enc pfx base rest with
      | none => rw [hrest] at hb; cases hb
      | some kvs' =>
        rw [hrest] at hb
        cases hb
        rcases List.mem_cons.mp hkv with he | he
        · exact ⟨e.1, e.2, List.mem_cons.mpr (Or.inl rfl), by rw [he]⟩
        · rcases ih kvs' hrest he with ⟨sub, w, hmem, hk⟩
          exact ⟨sub, w, List.mem_cons.mpr (Or.inr hmem), hk⟩

/-! Helper lemmas about the compiled matcher. -/

theorem matchSegs_closed_suffix (segs : List Str) (rest : Str)
    (h : matchSegs segs false rest = true) :
    (segs.getLast?.getD []) <:+ rest := by
  induction segs generalizing rest with
  | nil => exact List.nil_suffix
  | cons s ss ih =>
    cases ss with
    | nil =>
      simp only [matchSegs, Bool.false_eq_true, if_false, beq_iff_eq] at h
      rw [List.getLast?_singleton]
      exact h ▸ List.suffix_refl s
    | cons s2 ss' =>
      simp only [matchSegs, Bool.and_eq_true, List.any_eq_true, List.mem_range] at h
      rcases h with ⟨-, i, -, -, hm⟩
      have hsuf := ih _ hm
      rw [List.getLast?_cons_cons]
      exact hsuf.trans ((List.drop_suffix _ _).trans (List.drop_suffix _ _))

theorem matchSegs_open_append (segs : List Str) (rest extra : Str)
    (h : matchSegs segs true rest = true) (hx : extra.all dotOk = true) :
    matchSegs segs true (rest ++ extra) = true := by
  induction segs generalizing rest with
  | nil =>
    simp only [matchSegs, if_true] at h ⊢
    simp [List.all_append, h, hx]
  | cons s ss ih =>
    cases ss with
    | nil =>
      simp only [matchSegs, if_true, Bool.and_eq_true,
        List.isPrefixOf_iff_prefix] at h ⊢
      have hlen : s.length ≤ rest.length := h.1.length_le
      refine ⟨h.1.trans (List.prefix_append rest extra), ?_⟩
      simp [List.drop_append_of_le_length hlen, List.all_append, h.2, hx]
    | cons s2 ss' =>
      simp only [matchSegs, Bool.and_eq_true, List.isPrefixOf_iff_prefix,
        List.any_eq_true, List.mem_range] at h ⊢
      rcases h with ⟨hpre, i, hilt, hdot, hm⟩
      have hlen : s.length ≤ rest.length := hpre.length_le
      have hile : i ≤ (rest.drop s.length).length := Nat.lt_succ_iff.mp hilt
      refine ⟨hpre.trans (List.prefix_append rest extra), i, ?_, ?_, ?_⟩
      · rw [List.drop_append_of_le_length hlen, List.length_append]
        omega
      · rw [List.drop_append_of_le_length hlen, List.take_append_of_le_length hile]
        exact hdot
      · rw [List.drop_append_of_le_length hlen, List.drop_append_of_le_length hile]
        exact ih _ hm

/-! Lemmas about the pattern parser. -/

theorem standaloneSpecial_isRegexSpecial (c : Char)
    (h : standaloneSpecial c = true) : isRegexSpecial c = true := by
  simp only [standaloneSpecial, decide_eq_true_eq] at h
  simp only [isRegexSpecial, decide_eq_true_eq]
  tauto

theorem isRegexSpecial_not_alphanum (c : Char) (h : isRegexSpecial c = true) :
    c.isAlphanum = false := by
  simp only [isRegexSpecial, decide_eq_true_eq] at h
  rcases h with h | h | h | h | h | h | h | h | h | h | h | h | h | h | h <;>
    subst h <;> decide

theorem not_special_ne_star (c : Char) (h : isRegexSpecial c = false) :
    c ≠ '*' := by
  intro hc
  subst hc
  cases h

theorem parseLoop_nil (p : Option RItem) : parseLoop p [] = some (flushP p) := rfl

theorem parseLoop_lit (p : Option RItem) (c : Char) (rest : Str)
    (h1 : ¬ c = '\\') (h2 : ¬ c = '.') (h3 : ¬ c = '*')
    (h4 : standaloneSpecial c = false) :
    parseLoop p (c :: rest) =
      (parseLoop (some (RAtom.lit c, false)) rest).map fun its =>
        flushP p ++ its := by
  conv_lhs => rw [parseLoop.eq_def]
  dsimp only []
  rw [if_neg h1, if_neg h2, if_neg h3, h4]
  rw [if_neg Bool.false_ne_true]

theorem parseLoop_lit_of_not_special (p : Option RItem) (c : Char) (rest : Str)
    (hc : isRegexSpecial c = false) :
    parseLoop p (c :: rest) =
      (parseLoop (some (RAtom.lit c, false)) rest).map fun its =>
        flushP p ++ its := by
  refine parseLoop_lit p c rest ?_ ?_ (not_special_ne_star c hc) ?_
  · intro h
    subst h
    cases hc
  · intro h
    subst h
    cases hc
  · cases hs : standaloneSpecial c with
    | false => rfl
    | true => rw [standaloneSpecial_isRegexSpecial c hs] at hc; cases hc

theorem parseLoop_esc (p : Option RItem) (c : Char) (rest : Str)
    (hc : c.isAlphanum = false) :
    parseLoop p ('\\' :: c :: rest) =
      (parseLoop (some (RAtom.lit c, false)) rest).map fun its =>
        flushP p ++ its := by
  conv_lhs => rw [parseLoop.eq_def]
  dsimp only []
  rw [if_pos rfl, hc]
  rw [if_neg Bool.false_ne_true]

theorem parseLoop_dot (p : Option RItem) (rest : Str) :
    parseLoop p ('.' :: rest) =
      (parseLoop (some (RAtom.dot, false)) rest).map fun its =>
        flushP p ++ its := by
  conv_lhs => rw [parseLoop.eq_def]
  dsimp only []
  rw [if_neg (by decide : ¬ ('.' : Char) = '\\'), if_pos rfl]

theorem parseLoop_star (a : RAtom) (rest : Str) :
    parseLoop (some (a, false)) ('*' :: rest) = parseLoop (some (a, true)) rest := by
  conv_lhs => rw [parseLoop.eq_def]
  dsimp only []
  rw [if_neg (by decide : ¬ ('*' : Char) = '\\'),
    if_neg (by decide : ¬ ('*' : Char) = '.'), if_pos rfl]

theorem parseLoop_standalone (p : Option RItem) (c : Char) (rest : Str)
    (hc : standaloneSpecial c = true) (h1 : ¬ c = '\\') (h2 : ¬ c = '.')
    (h3 : ¬ c = '*') :
    parseLoop p (c :: rest) = none := by
  conv_lhs => rw [parseLoop.eq_def]
  dsimp only []
  rw [if_neg h1, if_neg h2, if_neg h3, hc]
  rw [if_pos rfl]

theorem parseLoop_pending (p : Option RItem) (body : Str)
    (hb : body.head? ≠ some '*') :
    parseLoop p body = (parseLoop none body).map fun its => flushP p ++ its := by
  cases body with
  | nil => simp [parseLoop_nil, flushP]
  | cons c rest =>
    have hcstar : ¬ c = '*' := by
      intro h
      exact hb (by rw [h]; rfl)
    by_cases h1 : c = '\\'
    · subst h1
      cases rest with
      | nil =>
        conv_lhs => rw [parseLoop.eq_def]
        conv_rhs => rw [parseLoop.eq_def]
        rfl
      | cons c2 rest2 =>
        by_cases ha : c2.isAlphanum = true
        · conv_lhs => rw [parseLoop.eq_def]
          conv_rhs => rw [parseLoop.eq_def]
          dsimp only []
          rw [if_pos rfl, ha]
          rw [if_pos rfl]
          rfl
        · rw [Bool.not_eq_true] at ha
          rw [parseLoop_esc p c2 rest2 ha, parseLoop_esc none c2 rest2 ha,
            Option.map_map]
          cases parseLoop (some (RAtom.lit c2, false)) rest2 with
          | none => rfl
          | some its => simp [flushP, Function.comp]
    · by_cases h2 : c = '.'
      · subst h2
        rw [parseLoop_dot, parseLoop_dot, Option.map_map]
        cases parseLoop (some (RAtom.dot, false)) rest with
        | none => rfl
        | some its => simp [flushP, Function.comp]
      · by_cases h4 : standaloneSpecial c = true
        · rw [parseLoop_standalone p c rest h4 h1 h2 hcstar,
            parseLoop_standalone none c rest h4 h1 h2 hcstar]
          rfl
        · rw [Bool.not_eq_true] at h4
          rw [parseLoop_lit p c rest h1 h2 hcstar h4,
            parseLoop_lit none c rest h1 h2 hcstar h4, Option.map_map]
          cases parseLoop (some (RAtom.lit c, false)) rest with
          | none => rfl
          | some its => simp [flushP, Function.comp]

theorem escapeRegex_cons (c : Char) (s : Str) :
    escapeRegex (c :: s) =
      (if isRegexSpecial c then ['\\', c] else [c]) ++ escapeRegex s := by
  simp [escapeRegex]

theorem head?_escapeRegex_append (s l : Str) (hl : l.head? ≠ some '*') :
    (escapeRegex s ++ l).head? ≠ some '*' := by
  cases s with
  | nil => simpa [escapeRegex] using hl
  | cons c s' =>
    rw [escapeRegex_cons]
    cases hc : isRegexSpecial c with
    | true => simp
    | false =>
      simp only [hc, Bool.false_eq_true, if_false, List.cons_append,
        List.head?_cons, ne_eq, Option.some.injEq]
      exact not_special_ne_star c hc

theorem parseLoop_escSeg (seg : Str) (l : Str) (p : Option RItem)
    (hl : l.head? ≠ some '*') :
    parseLoop p (escapeRegex seg ++ l) =
      (parseLoop none l).map fun its => flushP p ++ (litItems seg ++ its) := by
  induction seg generalizing p with
  | nil =>
    simp only [escapeRegex, List.flatMap_nil, List.nil_append, litItems,
      List.map_nil]
    exact parseLoop_pending p l hl
  | cons c seg' ih =>
    rw [escapeRegex_cons]
    cases hc : isRegexSpecial c with
    | true =>
      simp only [if_true, List.cons_append, List.nil_append, List.append_assoc]
      rw [parseLoop_esc p c (escapeRegex seg' ++ l)
        (isRegexSpecial_not_alphanum c hc), ih, Option.map_map]
      cases parseLoop none l with
      | none => rfl
      | some its => simp [flushP, litItems, Function.comp]
    | false =>
      simp only [hc, Bool.false_eq_true, if_false, List.cons_append,
        List.nil_append]
      rw [parseLoop_lit_of_not_special p c (escapeRegex seg' ++ l) hc, ih,
        Option.map_map]
      cases parseLoop none l with
      | none => rfl
      | some its => simp [flushP, litItems, Function.comp]

theorem parseLoop_lits (pfx : Str) (l : Str) (p : Option RItem)
    (h : regexLiteral pfx = true) (hl : l.head? ≠ some '*') :
    parseLoop p (pfx ++ l) =
      (parseLoop none l).map fun its => flushP p ++ (litItems pfx ++ its) := by
  induction pfx generalizing p with
  | nil =>
    simp only [List.nil_append, litItems, List.map_nil]
    exact parseLoop_pending p l hl
  | cons c pfx' ih =>
    simp only [regexLiteral, List.all_cons, Bool.and_eq_true,
      Bool.not_eq_true'] at h
    have h2 : regexLiteral pfx' = true := by
      simp only [regexLiteral]
      exact h.2
    rw [List.cons_append, parseLoop_lit_of_not_special p c (pfx' ++ l) h.1,
      ih _ h2, Option.map_map]
    cases parseLoop none l with
    | none => rfl
    | some its => simp [flushP, litItems, Function.comp]
/-! Lemmas about the matching engine, and the bridge between the parsed
pattern and the segment denotation `matchSegs` for prefixes free of
regexp-significant characters. -/

theorem atomOk_dot : atomOk RAtom.dot = dotOk := rfl

theorem matchItems_nil (s : Str) : matchItems [] s = s.isEmpty := rfl

theorem matchItems_unstar_nil (a : RAtom) (items : List RItem) :
    matchItems ((a, false) :: items) [] = false := rfl

theorem matchItems_unstar_cons (a : RAtom) (items : List RItem) (c : Char)
    (cs : Str) :
    matchItems ((a, false) :: items) (c :: cs) =
      (atomOk a c && matchItems items cs) := rfl

theorem matchItems_star (a : RAtom) (items : List RItem) (s : Str) :
    matchItems ((a, true) :: items) s =
      (List.range (s.length + 1)).any fun i =>
        (s.take i).all (atomOk a) && matchItems items (s.drop i) := rfl

theorem isPrefixOf_eq_decide (l₁ l₂ : Str) :
    l₁.isPrefixOf l₂ = decide (l₁ <+: l₂) := by
  rw [Bool.eq_iff_iff]
  simp [List.isPrefixOf_iff_prefix]

theorem matchItems_lit_append (l : Str) (items : List RItem) (s : Str) :
    matchItems (litItems l ++ items) s =
      (decide (l <+: s) && matchItems items (s.drop l.length)) := by
  induction l generalizing s with
  | nil => simp [litItems, List.nil_prefix]
  | cons c l' ih =>
    cases s with
    | nil =>
      rw [show litItems (c :: l') = (RAtom.lit c, false) :: litItems l' from rfl,
        List.cons_append, matchItems_unstar_nil]
      simp [List.prefix_nil]
    | cons d s' =>
      rw [show litItems (c :: l') = (RAtom.lit c, false) :: litItems l' from rfl,
        List.cons_append, matchItems_unstar_cons, ih s']
      simp only [List.length_cons, List.drop_succ_cons]
      by_cases hd : d = c
      · subst hd
        simp [atomOk, List.cons_prefix_cons]
      · have hcd : ¬ c = d := fun hh => hd hh.symm
        simp [atomOk, hd, List.cons_prefix_cons, hcd]

theorem matchItems_dotStar_nil (s : Str) :
    matchItems [(RAtom.dot, true)] s = s.all dotOk := by
  rw [matchItems_star]
  rw [Bool.eq_iff_iff]
  simp only [List.any_eq_true, List.mem_range, Bool.and_eq_true,
    List.all_eq_true, matchItems_nil, List.isEmpty_iff, atomOk_dot]
  constructor
  · rintro ⟨i, hi, htake, hdrop⟩
    rw [List.drop_eq_nil_iff] at hdrop
    intro c hc
    exact htake c (by rwa [List.take_of_length_le hdrop])
  · intro hall
    refine ⟨s.length, by omega, ?_, List.drop_length s⟩
    intro c hc
    rw [List.take_length] at hc
    exact hall c hc

theorem matchItems_segsItems (segs : List Str) (oe : Bool) (s : Str) :
    matchItems (segsItems segs oe) s = matchSegs segs oe s := by
  induction segs generalizing s with
  | nil =>
    cases oe with
    | false => simp [segsItems, matchItems_nil, matchSegs]
    | true => simp [segsItems, matchItems_dotStar_nil, matchSegs]
  | cons s1 ss ih =>
    cases ss with
    | nil =>
      rw [show segsItems [s1] oe = litItems s1 ++ segsItems [] oe from rfl,
        matchItems_lit_append]
      cases oe with
      | true =>
        rw [show segsItems [] true = [(RAtom.dot, true)] from rfl,
          matchItems_dotStar_nil]
        simp only [matchSegs, if_true]
        rw [isPrefixOf_eq_decide]
      | false =>
        rw [show segsItems [] false = ([] : List RItem) from rfl,
          matchItems_nil]
        simp only [matchSegs, Bool.false_eq_true, if_false]
        rw [Bool.eq_iff_iff]
        simp only [Bool.and_eq_true, decide_eq_true_eq, List.isEmpty_iff,
          beq_iff_eq]
        constructor
        · rintro ⟨⟨t, ht⟩, hd⟩
          rw [← ht, List.drop_left] at hd
          rw [← ht, hd]
          simp
        · rintro rfl
          exact ⟨List.prefix_refl _, List.drop_length _⟩
    | cons s2 ss' =>
      rw [show segsItems (s1 :: s2 :: ss') oe =
        litItems s1 ++ (RAtom.dot, true) :: segsItems (s2 :: ss') oe from rfl,
        matchItems_lit_append, matchItems_star]
      simp only [atomOk_dot, ih]
      simp only [matchSegs]
      rw [isPrefixOf_eq_decide]

/-! Parsing the generated pattern. -/

theorem head?_tailStr (oe : Bool) : (tailStr oe).head? ≠ some '*' := by
  cases oe <;> decide

theorem head?_bodyStr (segs : List Str) (oe : Bool) :
    (bodyStr segs oe).head? ≠ some '*' := by
  cases segs with
  | nil => exact head?_tailStr oe
  | cons s ss =>
    cases ss with
    | nil => exact head?_escapeRegex_append s (tailStr oe) (head?_tailStr oe)
    | cons s2 ss' =>
      rw [show bodyStr (s :: s2 :: ss') oe =
        escapeRegex s ++ (".*".data ++ bodyStr (s2 :: ss') oe) from
          by rw [show bodyStr (s :: s2 :: ss') oe =
            escapeRegex s ++ ".*".data ++ bodyStr (s2 :: ss') oe from rfl,
            List.append_assoc]]
      refine head?_escapeRegex_append s _ ?_
      intro hh
      rw [show ((".*".data ++ bodyStr (s2 :: ss') oe : Str)).head? =
        some '.' from rfl] at hh
      cases hh

theorem parseItems_bodyStr (segs : List Str) (oe : Bool) :
    parseItems (bodyStr segs oe) = some (segsItems segs oe) := by
  induction segs with
  | nil => cases oe <;> rfl
  | cons s ss ih =>
    cases ss with
    | nil =>
      show parseLoop none (escapeRegex s ++ tailStr oe) = _
      rw [parseLoop_escSeg s (tailStr oe) none (head?_tailStr oe)]
      have htail : parseLoop none (tailStr oe) = some (segsItems [] oe) := by
        cases oe <;> rfl
      rw [htail]
      rfl
    | cons s2 ss' =>
      show parseLoop none
        (escapeRegex s ++ ".*".data ++ bodyStr (s2 :: ss') oe) = _
      rw [List.append_assoc]
      have hdotstar : (".*".data ++ bodyStr (s2 :: ss') oe : Str).head? ≠
          some '*' := by
        intro hh
        rw [show ((".*".data ++ bodyStr (s2 :: ss') oe : Str)).head? =
          some '.' from rfl] at hh
        cases hh
      rw [parseLoop_escSeg s _ none hdotstar]
      rw [show (".*".data ++ bodyStr (s2 :: ss') oe : Str) =
        '.' :: '*' :: bodyStr (s2 :: ss') oe from rfl]
      rw [parseLoop_dot, parseLoop_star,
        parseLoop_pending _ _ (head?_bodyStr (s2 :: ss') oe)]
      have ih' : parseLoop none (bodyStr (s2 :: ss') oe) =
          some (segsItems (s2 :: ss') oe) := ih
      rw [ih']
      rfl

theorem parsePattern_regexSource (pfx spec : Str) (h : regexLiteral pfx = true) :
    parsePattern (regexSource pfx spec) =
      some (litItems pfx ++ segsItems (segments spec) (lastIsStar spec)) := by
  rw [show regexSource pfx spec =
    '^' :: ((pfx ++ bodyStr (segments spec) (lastIsStar spec)) ++ ['$'])
      from rfl]
  simp only [parsePattern, if_true]
  rw [List.getLast?_concat]
  dsimp only []
  rw [if_pos rfl]
  rw [List.dropLast_concat]
  show parseLoop none (pfx ++ bodyStr (segments spec) (lastIsStar spec)) = _
  rw [parseLoop_lits pfx _ none h (head?_bodyStr _ _)]
  have hb : parseLoop none (bodyStr (segments spec) (lastIsStar spec)) =
      some (segsItems (segments spec) (lastIsStar spec)) :=
    parseItems_bodyStr (segments spec) (lastIsStar spec)
  rw [hb]
  rfl

/-- Bridge: for a prefix free of regexp-significant characters, the
compiled matcher tests that the key starts with the prefix and that its
remainder matches the segment denotation. -/
theorem regexTest_literal (pfx spec key : Str) (h : regexLiteral pfx = true) :
    regexTest pfx spec key =
      (decide (pfx <+: key) &&
        matchSegs (segments spec) (lastIsStar spec) (key.drop pfx.length)) := by
  simp only [regexTest, parsePattern_regexSource pfx spec h]
  rw [matchItems_lit_append, matchItems_segsItems]

theorem regexTest_prefix (pfx spec key : Str) (hlit : regexLiteral pfx = true)
    (h : regexTest pfx spec key = true) : pfx <+: key := by
  rw [regexTest_literal pfx spec key hlit, Bool.and_eq_true,
    decide_eq_true_eq] at h
  exact h.1

/-- Bridge for the trailing-escape spec consisting of one backslash: for
a metacharacter-free prefix its compiled matcher accepts exactly the key
`prefix ++ "undefined"`. -/
theorem regexTest_backslash (pfx key : Str) (hlit : regexLiteral pfx = true) :
    regexTest pfx "\\".data key = true ↔ key = pfx ++ "undefined".data := by
  rw [regexTest_literal pfx _ key hlit]
  rw [show segments "\\".data = ["undefined".data] from by decide,
    show lastIsStar "\\".data = false from by decide]
  simp only [matchSegs, Bool.false_eq_true, if_false, Bool.and_eq_true,
    decide_eq_true_eq, beq_iff_eq]
  constructor
  · rintro ⟨⟨t, ht⟩, hdrop⟩
    rw [← ht, List.drop_left] at hdrop
    rw [← ht, hdrop]
  · rintro rfl
    exact ⟨List.prefix_append _ _, List.drop_left _ _⟩

/-! Claim theorems. -/

/-- Claim C1: for every store state, `rmAllForce` removes only keys that
start with the instance's configured prefix: every key in the store that
does not start with the prefix is still present, with its value
unchanged, after `rmAllForce` completes. -/
theorem rmAllForce_frame (pfx k : Str) (st : Store) (h : ¬ pfx <+: k) :
    getVal k (rmAllForce pfx st).1 = getVal k st := by
  have hnot : k ∉ (storeKeys st).filter (fun key => decide (pfx <+: key)) := by
    intro hk
    exact h (of_decide_eq_true (List.mem_filter.mp hk).2)
  simp only [rmAllForce, multiRemoveStore]
  exact getVal_filter_of_all _ k st fun v => by simp [hnot]

/-- Witness for C1 at a concrete store holding a foreign key. -/
theorem rmAllForce_frame_witness :
    ¬ ("/kvfs".data <+: "other".data) ∧
    getVal "other".data
        (rmAllForce "/kvfs".data
          [("other".data, "1".data), ("/kvfs/a".data, "2".data)]).1 =
      getVal "other".data [("other".data, "1".data), ("/kvfs/a".data, "2".data)] :=
  ⟨by decide, rmAllForce_frame "/kvfs".data "other".data
    [("other".data, "1".data), ("/kvfs/a".data, "2".data)] (by decide)⟩

/-- Claim C4: `read("")`, `write("", v)`, `rm("")` fail with a validation
error, and `writeMulti(basePath, values)` fails with a validation error
when some entry's combined path is empty; in every case the error is
raised before any store operation is attempted, so the store state is
unchanged and the trace of store calls is empty. -/
theorem empty_path_validation {V : Type} (enc : V → Str) (dec : Str → V)
    (pfx : Str) (v w : V) (st : Store) (base : Option Str)
    (values : List (Str × V)) (sub : Str)
    (hmem : (sub, w) ∈ values) (hsub : fullPathOf base sub = []) :
    read dec pfx [] st = (Except.error KVError.validation, []) ∧
    write enc pfx [] v st = (Except.error KVError.validation, st, []) ∧
    rm pfx [] st = (Except.error KVError.validation, st, []) ∧
    writeMulti enc pfx base values st = (Except.error KVError.validation, st, []) := by
  refine ⟨rfl, rfl, rfl, ?_⟩
  have hne : values.isEmpty = false := by
    cases values with
    | nil => cases hmem
    | cons a l => rfl
  have hb := buildKVs_none_of_mem enc pfx base values sub w hmem hsub
  simp [writeMulti, hne, hb]

/-- Witness for C4 at a concrete `writeMulti` call with an empty combined
path. -/
theorem empty_path_validation_witness :
    (([], "x".data) ∈ [(([] : Str), "x".data)] ∧ fullPathOf none [] = []) ∧
    write (fun s : Str => s) "/kvfs".data [] "v".data [] =
      (Except.error KVError.validation, [], []) ∧
    writeMulti (fun s : Str => s) "/kvfs".data none [(([] : Str), "x".data)] [] =
      (Except.error KVError.validation, [], []) :=
  ⟨⟨by decide, rfl⟩,
    (empty_path_validation (fun s : Str => s) (fun s : Str => s) "/kvfs".data
      "v".data "x".data [] none [(([] : Str), "x".data)] [] (by decide) rfl).2.1,
    (empty_path_validation (fun s : Str => s) (fun s : Str => s) "/kvfs".data
      "v".data "x".data [] none [(([] : Str), "x".data)] [] (by decide) rfl).2.2.2⟩

/-- Claim C5: round trip — for every non-empty path and value, assuming
the codec satisfies `decode(encode(v)) = v`, `write` followed by `read`
on the same instance returns exactly that value (not null). -/
theorem write_read_roundtrip {V : Type} (enc : V → Str) (dec : Str → V)
    (pfx path : Str) (v : V) (st : Store)
    (hpath : path ≠ []) (hcodec : dec (enc v) = v) :
    (read dec pfx path ((write enc pfx path v st).2.1)).1 = Except.ok (some v) := by
  have hne : path.isEmpty = false := by
    cases path with
    | nil => exact absurd rfl hpath
    | cons a l => rfl
  simp [read, write, hne, getVal_setVal_self, hcodec]

/-- Witness for C5 with the identity codec. -/
theorem write_read_roundtrip_witness :
    ("/a".data ≠ ([] : Str)) ∧
    (read (fun s : Str => s) "/kvfs".data "/a".data
        ((write (fun s : Str => s) "/kvfs".data "/a".data "val".data []).2.1)).1 =
      Except.ok (some "val".data) :=
  ⟨by decide, write_read_roundtrip (fun s : Str => s) (fun s : Str => s)
    "/kvfs".data "/a".data "val".data [] (by decide) rfl⟩

/-- The concrete store of the wildcard-semantics example: the five keys
`/baseball`, `/basketball`, `/ball`, `/baller`, `/basketweaving` under
the default prefix `/kvfs`. -/
def ballStore : Store :=
  [("/kvfs/baseball".data, "1".data), ("/kvfs/basketball".data, "1".data),
   ("/kvfs/ball".data, "1".data), ("/kvfs/baller".data, "1".data),
   ("/kvfs/basketweaving".data, "1".data)]

/-- Claim C6: on the five-key store, `ls("/*ball")` returns exactly
`/baseball`, `/basketball`, `/ball` (excluding `/baller` and
`/basketweaving`), and `ls("/*ball*")` returns exactly those three plus
`/baller`. -/
theorem ls_ball_example :
    (ls "/kvfs".data (some "/*ball".data) ballStore).1 =
      ["/baseball".data, "/basketball".data, "/ball".data] ∧
    (ls "/kvfs".data (some "/*ball*".data) ballStore).1 =
      ["/baseball".data, "/basketball".data, "/ball".data, "/baller".data] :=
  ⟨by decide, by decide⟩

/-- Claim C7: `rmMulti` (modelled from the spec, see `rmMulti`) takes a
list of literal paths and batch-removes exactly the keys
`prefix + path`; given an empty list it performs zero store operations
and leaves the store unchanged. -/
theorem rmMulti_spec (pfx k : Str) (paths : List Str) (st : Store) :
    rmMulti pfx [] st = (st, []) ∧
    getVal k (rmMulti pfx paths st).1 =
      (if k ∈ paths.map (fun path => pfx ++ path) then none else getVal k st) := by
  refine ⟨rfl, ?_⟩
  cases paths with
  | nil => simp [rmMulti]
  | cons a l =>
    have hne : ((a :: l).isEmpty) = false := rfl
    simp only [rmMulti, hne, Bool.false_eq_true, if_false]
    exact getVal_multiRemove _ k st

/-- Claim C8: `writeMulti(basePath, [])` with an empty entries list
performs zero store operations and leaves the store state unchanged, for
every base path (including `undefined`). -/
theorem writeMulti_empty_noop {V : Type} (enc : V → Str) (pfx : Str)
    (base : Option Str) (st : Store) :
    writeMulti enc pfx base [] st = (Except.ok (), st, []) := rfl

/-- Claim C9 counterexample: the claim's iff fails for a prefix that is
itself regexp-significant.  With prefix `"."` the compiled pattern for
the spec `"\"` is `^.undefined$`, whose leading `.` matches any
character: the matcher accepts `Xundefined`, a key different from
`prefix ++ "undefined"`, and on a store holding only `Xundefined` the
call `ls("\")` returns `["undefined"]` although the key `.undefined`
does not exist. -/
theorem trailing_escape_counterexample :
    regexTest ".".data "\\".data "Xundefined".data = true ∧
    "Xundefined".data ≠ ".".data ++ "undefined".data ∧
    (ls ".".data (some "\\".data) [("Xundefined".data, "1".data)]).1 =
      ["undefined".data] ∧
    ".".data ++ "undefined".data ∉
      storeKeys [("Xundefined".data, "1".data)] := by decide

/-- Claim C9 (amended): a spec whose final character is an unescaped
backslash makes the compiler append the literal text `"undefined"` to
the current segment; for every instance whose prefix contains no
regexp-significant character, the matcher compiled from the spec
consisting of a single backslash accepts exactly the key
`prefix ++ "undefined"`, so `ls("\\")` returns `["undefined"]` if and
only if that key exists in the (duplicate-free) store. -/
theorem trailing_escape_undefined (pfx key : Str) (st : Store)
    (hlit : regexLiteral pfx = true) (hnd : (storeKeys st).Nodup) :
    segments "\\".data = ["undefined".data] ∧
    (regexTest pfx "\\".data key = true ↔ key = pfx ++ "undefined".data) ∧
    ((ls pfx (some "\\".data) st).1 = ["undefined".data] ↔
      pfx ++ "undefined".data ∈ storeKeys st) := by
  refine ⟨by decide, regexTest_backslash pfx key hlit, ?_⟩
  show (((storeKeys st).filter fun x => regexTest pfx "\\".data x).map
      fun x => x.drop pfx.length) = ["undefined".data] ↔ _
  by_cases hmem : pfx ++ "undefined".data ∈ storeKeys st
  · rw [filter_eq_singleton_of_mem _ _ _ hnd
      (fun x => regexTest_backslash pfx x hlit) hmem]
    simp [hmem, List.drop_left]
  · rw [filter_eq_nil_of_not_mem _ _ _
      (fun x => regexTest_backslash pfx x hlit) hmem]
    simp [hmem]

/-- Witness for C9 at a concrete one-key store. -/
theorem trailing_escape_undefined_witness :
    (storeKeys [("/kvfsundefined".data, "1".data)]).Nodup ∧
    ((ls "/kvfs".data (some "\\".data) [("/kvfsundefined".data, "1".data)]).1 =
        ["undefined".data] ↔
      "/kvfs".data ++ "undefined".data ∈
        storeKeys [("/kvfsundefined".data, "1".data)]) :=
  ⟨by decide, (trailing_escape_undefined "/kvfs".data []
    [("/kvfsundefined".data, "1".data)] (by decide) (by decide)).2.2⟩

/-- Claim C10: `readMulti` pairs a matched key with value null exactly
when the key is absent from the store or its stored text is the empty
string: an empty-string stored value is indistinguishable from an absent
entry in `readMulti`'s result. -/
theorem readMulti_empty_null {V : Type} (dec : Str → V)
    (pfx spec q : Str) (val : Option V) (st : Store)
    (hmem : (q, val) ∈ (readMulti dec pfx spec st).1) :
    val = none ↔
      (getVal (pfx ++ q) st = none ∨ getVal (pfx ++ q) st = some []) := by
  simp only [readMulti, multiGetStore, List.map_map, List.mem_map,
    Function.comp] at hmem
  rcases hmem with ⟨x, -, heq⟩
  rw [Prod.mk.injEq] at heq
  obtain ⟨hq, hval⟩ := heq
  rw [List.drop_left] at hq
  subst hq
  subst hval
  cases hget : getVal (pfx ++ x) st with
  | none => simp [decodeTruthy, hget]
  | some s =>
    cases s with
    | nil => simp [decodeTruthy, hget]
    | cons c cs => simp [decodeTruthy, hget]

/-- Witness for C10: a store whose only entry holds the empty string is
read back as a null value. -/
theorem readMulti_empty_null_witness :
    (("/a".data, (none : Option Str)) ∈
        (readMulti (fun s : Str => s) "/kvfs".data "*".data
          [("/kvfs/a".data, [])]).1) ∧
    ((none : Option Str) = none ↔
      (getVal ("/kvfs".data ++ "/a".data) [("/kvfs/a".data, ([] : Str))] = none ∨
        getVal ("/kvfs".data ++ "/a".data) [("/kvfs/a".data, ([] : Str))] =
          some [])) :=
  ⟨by decide, readMulti_empty_null (fun s : Str => s) "/kvfs".data "*".data
    "/a".data none [("/kvfs/a".data, [])] (by decide)⟩

/-- Claim C3 counterexample: the spec `a\*` ends in an escaped wildcard
(escape marker followed by `*` as the final two characters — indeed its
single literal segment is `a*`), yet the compiled matcher accepts the
key `/kvfsa*Z`, whose final literal segment `a*` is not a suffix: the
matcher is not end-anchored, because line 152 of the source tests only
the raw last character of the spec. -/
theorem endAnchor_counterexample :
    segments "a\\*".data = ["a*".data] ∧
    lastIsStar "a\\*".data = true ∧
    regexTest "/kvfs".data "a\\*".data "/kvfsa*Z".data = true ∧
    ¬ ("a*".data <:+ "/kvfsa*Z".data) := by decide

/-- Claim C3 (amended): for every instance whose prefix contains no
regexp-significant character, the compiled matcher is anchored at the
end unless the spec's last character is the wildcard character `*`,
whether escaped or not: when the last character is not `*` every
accepted key ends with the final literal segment, and when it is `*`
(even as part of
an escaped wildcard) the end is left open — an accepted key remains
accepted after appending arbitrary dot-matchable trailing characters. -/
theorem endAnchor_amended (pfx spec key extra : Str)
    (hlit : regexLiteral pfx = true) :
    (lastIsStar spec = false → regexTest pfx spec key = true →
      ((segments spec).getLast?.getD []) <:+ key) ∧
    (lastIsStar spec = true → regexTest pfx spec key = true →
      extra.all dotOk = true → regexTest pfx spec (key ++ extra) = true) := by
  constructor
  · intro hls h
    rw [regexTest_literal pfx spec key hlit, Bool.and_eq_true,
      decide_eq_true_eq] at h
    rcases h with ⟨-, hm⟩
    rw [hls] at hm
    exact (matchSegs_closed_suffix _ _ hm).trans (List.drop_suffix _ _)
  · intro hls h hx
    rw [regexTest_literal pfx spec key hlit, Bool.and_eq_true,
      decide_eq_true_eq] at h
    rw [regexTest_literal pfx spec (key ++ extra) hlit, Bool.and_eq_true,
      decide_eq_true_eq]
    rcases h with ⟨hpre, hm⟩
    rw [hls] at hm ⊢
    refine ⟨hpre.trans (List.prefix_append key extra), ?_⟩
    rw [List.drop_append_of_le_length hpre.length_le]
    exact matchSegs_open_append _ _ _ hm hx

/-- Witness for the amended C3: an end-anchored match for a spec not
ending in `*`, and an open-ended extension for a spec ending in `*`. -/
theorem endAnchor_amended_witness :
    ("ll".data <:+ "/kvfs/baseball".data) ∧
    regexTest "/kvfs".data "/*ball*".data ("/kvfs/ball".data ++ "er".data) = true := by
  constructor
  · have h := (endAnchor_amended "/kvfs".data "/*ba*ll".data
      "/kvfs/baseball".data [] (by decide)).1 (by decide) (by decide)
    revert h
    decide
  · exact (endAnchor_amended "/kvfs".data "/*ball*".data "/kvfs/ball".data
      "er".data (by decide)).2 (by decide) (by decide) (by decide)

/-- Claim C2 counterexample: the matcher-containment half of the claim
fails for an instance whose non-empty prefix is itself
regexp-significant.  With prefix `"."` and spec `"*"` the compiled
pattern is `^..*$`, whose leading `.` matches any character: the matcher
accepts `Xfoo`, a key that does not start with the prefix, and on a
store holding only `Xfoo` the call `ls("*")` returns `["foo"]` although
the key `.foo` is not in the store. -/
theorem prefix_isolation_counterexample :
    (".".data ≠ ([] : Str)) ∧
    regexTest ".".data "*".data "Xfoo".data = true ∧
    ¬ (".".data <+: "Xfoo".data) ∧
    (ls ".".data (some "*".data) [("Xfoo".data, "1".data)]).1 = ["foo".data] ∧
    ".".data ++ "foo".data ∉ storeKeys [("Xfoo".data, "1".data)] := by decide

/-- Claim C2 (amended): prefix isolation for every instance whose
non-empty prefix contains no regexp-significant character (such as the
default `/kvfs`) — every store key created by `write` is exactly
`prefix ++ path` and every key created by `writeMulti` is
`prefix ++ combinedPath` for one of its entries (hence starts with the
prefix); the compiled matcher accepts only keys that start with the
prefix; therefore `ls` returns only de-prefixed keys of entries in the
instance's namespace and `readMulti` pairs values with exactly those
paths.  (The key-creation conjuncts hold for every prefix; the matcher
conjuncts need the restriction, see the counterexample.) -/
theorem prefix_isolation {V : Type} (enc : V → Str) (dec : Str → V)
    (pfx path spec key q k : Str) (v : V) (base : Option Str)
    (values : List (Str × V)) (st : Store) (_hp : pfx ≠ [])
    (hlit : regexLiteral pfx = true) :
    (path ≠ [] →
      (write enc pfx path v st).2.2 = [StoreOp.setItem (pfx ++ path) (enc v)]) ∧
    (k ∈ writtenKeys (writeMulti enc pfx base values st).2.2 →
      ∃ sub w, (sub, w) ∈ values ∧ k = pfx ++ fullPathOf base sub) ∧
    (regexTest pfx spec key = true → pfx <+: key) ∧
    (q ∈ (ls pfx (some spec) st).1 → pfx ++ q ∈ storeKeys st) ∧
    ((readMulti dec pfx spec st).1.map Prod.fst = (ls pfx (some spec) st).1) := by
  refine ⟨?_, ?_, regexTest_prefix pfx spec key hlit, ?_, ?_⟩
  · intro hpath
    have hne : path.isEmpty = false := by
      cases path with
      | nil => exact absurd rfl hpath
      | cons a l => rfl
    simp [write, hne]
  · intro hk
    by_cases hv : values.isEmpty = true
    · simp [writeMulti, hv, writtenKeys] at hk
    · simp only [Bool.not_eq_true] at hv
      cases hb : buildKVs enc pfx base values with
      | none => simp [writeMulti, hv, hb, writtenKeys] at hk
      | some kvs =>
        simp only [writeMulti, hv, hb, Bool.false_eq_true, if_false,
          writtenKeys, opWriteKeys, List.map_cons, List.map_nil,
          List.flatten_cons, List.flatten_nil, List.append_nil,
          List.mem_map] at hk
        rcases hk with ⟨kv, hkv, hk1⟩
        rcases buildKVs_keys enc pfx base values kvs hb kv hkv with
          ⟨sub, w, hmemv, hkey⟩
        exact ⟨sub, w, hmemv, by rw [← hk1, hkey]⟩
  · intro hq
    simp only [ls, List.mem_map, List.mem_filter] at hq
    rcases hq with ⟨key', ⟨hmem', htest'⟩, hdrop⟩
    rcases regexTest_prefix _ _ _ hlit htest' with ⟨t, ht⟩
    rw [← ht, List.drop_left] at hdrop
    rw [← hdrop, ht]
    exact hmem'
  · simp only [readMulti, multiGetStore, List.map_map]
    exact (List.map_congr_left fun x _ => List.drop_left pfx x).trans
      (List.map_id _)

/-- Witness for C2 at the default prefix. -/
theorem prefix_isolation_witness :
    ("/kvfs".data ≠ ([] : Str)) ∧
    (write (fun s : Str => s) "/kvfs".data "/a".data "v".data []).2.2 =
      [StoreOp.setItem ("/kvfs".data ++ "/a".data) "v".data] :=
  ⟨by decide, (prefix_isolation (fun s : Str => s) (fun s : Str => s)
    "/kvfs".data "/a".data [] [] [] [] "v".data none [] []
    (by decide) (by decide)).1 (by decide)⟩

end KVFS
